import Mathlib

set_option maxRecDepth 2048

/-!
Verification of `d4counting/splitting_types.py`.

Group elements are sympy permutations on the ground set {0,1,2,3}; we embed
them as `Equiv.Perm (Fin 4)`.  Sympy composes left-to-right: `h * g` applies
`h` first, then `g`, i.e. `Equiv.trans h g`.  Python `frozenset`s become
`Finset`s.  Python iterates a `frozenset` in an arbitrary but deterministic
order; we model that order by sorting along an injective key, and embed the
partial operation `next(iter(s))` as the head of the sorted enumeration, so
that `compute_inertia` is `Option`-valued: `none` models the `StopIteration`
raise on an empty set.  `write_inertia` sorts its argument list in place; we
embed it with explicit state passing, returning the post-call contents of
the list of the caller together with the produced string.
-/

/-- A group element: a permutation of the 4-point ground set. -/
abbrev GroupElement := Equiv.Perm (Fin 4)

/-- The sympy product `h * g`: apply `h` first, then `g`. -/
def comp (h g : GroupElement) : GroupElement := h.trans g

/-- The `GaloisGroup` dataclass: an element tuple plus a display label.
`eq=True, frozen=True` gives structural equality on the field pair. -/
structure GaloisGroup where
  group : List GroupElement
  latex_name : String
deriving DecidableEq

/-- The set of distinct elements of a `GaloisGroup` (a `frozenset` of its tuple). -/
def elems (G : GaloisGroup) : Finset GroupElement := G.group.toFinset

abbrev Coset := Finset GroupElement

/-- Embedding of `frozenset(h * g for h in c)`: the action of `g` on a set `c` of elements. -/
def act (g : GroupElement) (c : Coset) : Coset := c.image (fun h => comp h g)

/-- Embedding of `get_cosets`: `frozenset(frozenset(h * g for h in small_galois) for g in big_galois)`. -/
def get_cosets (big_galois small_galois : GaloisGroup) : Finset Coset :=
  (big_galois.group.map
    (fun g => (small_galois.group.map (fun h => comp h g)).toFinset)).toFinset

/-- Embedding of `get_orbits`: `frozenset(frozenset(frozenset(h * g for h in coset) for g in group) for coset in cosets)`. -/
def get_orbits (cosets : Finset Coset) (group : GaloisGroup) : Finset (Finset Coset) :=
  cosets.image (fun coset => (group.group.map (fun g => act g coset)).toFinset)

/-- Sort the elements of a finset along an antisymmetric total preorder.
Unlike `Finset.sort` this reduces definitionally in the kernel. -/
def sortBy {α : Type} (r : α → α → Prop) [DecidableRel r] [IsTotal α r]
    [IsTrans α r] [IsAntisymm α r] (s : Finset α) : List α :=
  Quotient.liftOn s.val (fun l => List.insertionSort r l)
    (fun l l' h =>
      List.eq_of_perm_of_sorted
        ((List.perm_insertionSort r l).trans
          (h.trans (List.perm_insertionSort r l').symm))
        (List.sorted_insertionSort r l) (List.sorted_insertionSort r l'))

/-- Injective numeric key of a group element (its base-4 digit string). -/
def elKey (p : GroupElement) : Nat :=
  (p 0).val * 64 + (p 1).val * 16 + (p 2).val * 4 + (p 3).val

/-- Injective key of a coset: the sorted list of the keys of its elements. -/
def cosetKey (c : Coset) : List Nat :=
  sortBy (fun a b => a ≤ b) (c.image elKey)

/-- Injective key of a set of cosets: the sorted list of the keys of its members. -/
def orbitKey (s : Finset Coset) : List (List Nat) :=
  sortBy (fun a b => a ≤ b) (s.image cosetKey)

/-- The deterministic enumeration order of a `frozenset` of cosets. -/
def orbitLe (a b : Finset Coset) : Prop := orbitKey a ≤ orbitKey b

instance : DecidableRel orbitLe := by
  unfold orbitLe; infer_instance

instance : IsTrans (Finset Coset) orbitLe :=
  ⟨fun _ _ _ h1 h2 => le_trans h1 h2⟩

instance : IsTotal (Finset Coset) orbitLe :=
  ⟨fun a b => le_total (orbitKey a) (orbitKey b)⟩

instance : IsAntisymm (Finset Coset) orbitLe := by
  constructor
  intro a b h1 h2
  have hkey : orbitKey a = orbitKey b := le_antisymm h1 h2
  have hcoe : ∀ {γ : Type} (r : γ → γ → Prop) [DecidableRel r] [IsTotal γ r]
      [IsTrans γ r] [IsAntisymm γ r] (s : Finset γ),
      (sortBy r s : Multiset γ) = s.val := by
    intro γ r i1 i2 i3 i4 s
    obtain ⟨m, hm⟩ := s
    induction m using Quotient.inductionOn
    exact Quot.sound (List.perm_insertionSort r _)
  have hsort_inj : ∀ {γ : Type} (r : γ → γ → Prop) [DecidableRel r]
      [IsTotal γ r] [IsTrans γ r] [IsAntisymm γ r] {s t : Finset γ},
      sortBy r s = sortBy r t → s = t := by
    intro γ r i1 i2 i3 i4 s t h
    apply Finset.val_injective
    rw [← hcoe r s, ← hcoe r t, h]
  have helKey : Function.Injective elKey := by
    intro p q h
    unfold elKey at h
    have d0 : (p 0).val < 4 := (p 0).isLt
    have d1 : (p 1).val < 4 := (p 1).isLt
    have d2 : (p 2).val < 4 := (p 2).isLt
    have d3 : (p 3).val < 4 := (p 3).isLt
    have k0 : (q 0).val < 4 := (q 0).isLt
    have k1 : (q 1).val < 4 := (q 1).isLt
    have k2 : (q 2).val < 4 := (q 2).isLt
    have k3 : (q 3).val < 4 := (q 3).isLt
    have e0 : p 0 = q 0 := Fin.val_injective (by omega)
    have e1 : p 1 = q 1 := Fin.val_injective (by omega)
    have e2 : p 2 = q 2 := Fin.val_injective (by omega)
    have e3 : p 3 = q 3 := Fin.val_injective (by omega)
    apply Equiv.ext
    intro x
    fin_cases x
    · exact e0
    · exact e1
    · exact e2
    · exact e3
  have hcosetKey : Function.Injective cosetKey := fun s t h =>
    Finset.image_injective helKey (hsort_inj _ h)
  exact Finset.image_injective hcosetKey (hsort_inj _ hkey)

/-- One iteration of the `compute_inertia` loop body:
`suborbits = get_orbits(orbit, inertia_group); example_orbit = next(iter(suborbits));
(len(suborbits), len(example_orbit))`.  `none` models the `StopIteration` raise. -/
def inertiaPair (orbit : Finset Coset) (inertia_group : GaloisGroup) :
    Option (Nat × Nat) :=
  let suborbits := get_orbits orbit inertia_group
  match (sortBy orbitLe suborbits).head? with
  | none => none
  | some example_orbit => some (suborbits.card, example_orbit.card)

/-- The `compute_inertia` loop over the enumeration of the orbit set. -/
def computeInertiaList (orbits : List (Finset Coset)) (inertia_group : GaloisGroup) :
    Option (List (Nat × Nat)) :=
  match orbits with
  | [] => some []
  | O :: rest =>
    match inertiaPair O inertia_group, computeInertiaList rest inertia_group with
    | some p, some l => some (p :: l)
    | _, _ => none

/-- Embedding of `compute_inertia`: iterate the loop body over the orbit set. -/
def compute_inertia (decomp_orbits : Finset (Finset Coset))
    (inertia_group : GaloisGroup) : Option (List (Nat × Nat)) :=
  computeInertiaList (sortBy orbitLe decomp_orbits) inertia_group

/-- The sort order of `inertia.sort(key=lambda x: (x[0], -x[1]))`:
ascending first component, ties broken by descending second component. -/
def inertiaOrder (x y : Nat × Nat) : Prop :=
  x.1 < y.1 ∨ (x.1 = y.1 ∧ y.2 ≤ x.2)

instance : DecidableRel inertiaOrder := by
  unfold inertiaOrder; infer_instance

instance : IsTotal (Nat × Nat) inertiaOrder := by
  constructor; intro a b; unfold inertiaOrder; omega

instance : IsTrans (Nat × Nat) inertiaOrder := by
  constructor; intro a b c; unfold inertiaOrder; omega

/-- Rendering: `f"{f}^{e}" if e > 1 else f"{f}"`. -/
def renderPair (p : Nat × Nat) : String :=
  if 1 < p.2 then toString p.1 ++ "^" ++ toString p.2 else toString p.1

/-- Embedding of `write_inertia` with the in-place `inertia.sort(...)` made
explicit: the first component is the content of the argument list after the call,
the second is the returned string. -/
def write_inertia (inertia : List (Nat × Nat)) : List (Nat × Nat) × String :=
  let sorted := List.insertionSort inertiaOrder inertia
  (sorted, "(" ++ String.intercalate (" ") (sorted.map renderPair) ++ ")")

/-- The (unvalidated) precondition that the distinct elements of a `GaloisGroup`
form a group: identity, closure under composition, closure under inverse. -/
abbrev IsGroup (G : GaloisGroup) : Prop :=
  (1 : GroupElement) ∈ elems G ∧
  (∀ a ∈ elems G, ∀ b ∈ elems G, comp a b ∈ elems G) ∧
  (∀ a ∈ elems G, a⁻¹ ∈ elems G)

/-- Predicate: `H` is a true subgroup of `G`. -/
abbrev IsSubgroupOf (H G : GaloisGroup) : Prop :=
  IsGroup H ∧ elems H ⊆ elems G

/-- The orbit of a point `c` under the elements of `K`. -/
def orbitOf (K : GaloisGroup) (c : Coset) : Finset Coset :=
  (elems K).image (fun g => act g c)

/-- The 4-cycle generator `σ = Permutation(0, 1, 2, 3)`. -/
def σ : GroupElement := ⟨![1, 2, 3, 0], ![3, 0, 1, 2], by decide, by decide⟩

/-- The reflection `τ = Permutation(0, 1)(2, 3)`. -/
def τ : GroupElement := ⟨![1, 0, 3, 2], ![1, 0, 3, 2], by decide, by decide⟩

/-- The identity `ι = Permutation(3)`. -/
def ι : GroupElement := 1

/-- The big group `D4`. -/
def D4 : GaloisGroup :=
  ⟨[ι, σ, comp σ σ, comp (comp σ σ) σ, τ, comp σ τ, comp (comp σ σ) τ,
    comp (comp (comp σ σ) σ) τ], "D_4"⟩

/-- Subgroup `Gal_M_L1 = ⟨τ⟩`. -/
def Gal_M_L1 : GaloisGroup := ⟨[ι, τ], "\\langle \\tau \\rangle"⟩

/-- Subgroup `Gal_M_K = ⟨σ⟩`, the decomposition subgroup. -/
def Gal_M_K : GaloisGroup :=
  ⟨[ι, σ, comp σ σ, comp (comp σ σ) σ], "\\langle \\sigma \\rangle"⟩

/-- Subgroup `Gal_M_L = ⟨σ²⟩`, the inertia subgroup. -/
def Gal_M_L : GaloisGroup := ⟨[ι, comp σ σ], "\\langle \\sigma^2 \\rangle"⟩

/-- Subgroup `Gal_M_M = {1}`, the trivial subgroup. -/
def Gal_M_M : GaloisGroup := ⟨[ι], "\\\x7b1\\\x7d"⟩

/-- Two singleton decomposition orbits, each holding one singleton coset. -/
def twoOrbits : Finset (Finset Coset) :=
  {{{(1 : GroupElement)}}, {{comp σ σ}}}

/-- A small concrete point set: `{{1}, {s^2}}` with `s` the 4-cycle. -/
def twoPoints : Finset Coset := {{(1 : GroupElement)}, {comp σ σ}}

/-- A copy of `Gal_M_K` carrying a different display label. -/
def relabelledK : GaloisGroup := ⟨Gal_M_K.group, "renamed"⟩

theorem sortBy_coe {α : Type} (r : α → α → Prop) [DecidableRel r] [IsTotal α r]
    [IsTrans α r] [IsAntisymm α r] (s : Finset α) :
    (sortBy r s : Multiset α) = s.val := by
  obtain ⟨m, hm⟩ := s
  induction m using Quotient.inductionOn
  exact Quot.sound (List.perm_insertionSort r _)

theorem comp_assoc (a b c : GroupElement) : comp (comp a b) c = comp a (comp b c) :=
  Equiv.trans_assoc a b c

theorem comp_one (a : GroupElement) : comp a 1 = a := by
  simp [comp, Equiv.Perm.one_def]

theorem one_comp (a : GroupElement) : comp 1 a = a := by
  simp [comp, Equiv.Perm.one_def]

theorem comp_inv (a : GroupElement) : comp a a⁻¹ = 1 := by
  simp [comp, Equiv.Perm.inv_def, Equiv.Perm.one_def]

theorem inv_comp (a : GroupElement) : comp a⁻¹ a = 1 := by
  simp [comp, Equiv.Perm.inv_def, Equiv.Perm.one_def]

theorem comp_right_injective (g : GroupElement) :
    Function.Injective (fun h => comp h g) := by
  intro a b h
  have h2 := congrArg (fun e => comp e g⁻¹) h
  simpa [comp_assoc, comp_inv, comp_one] using h2

theorem mem_act {x g : GroupElement} {c : Coset} :
    x ∈ act g c ↔ ∃ h ∈ c, comp h g = x := by
  simp [act]

theorem act_card (g : GroupElement) (c : Coset) : (act g c).card = c.card :=
  Finset.card_image_of_injective c (comp_right_injective g)

theorem act_one (c : Coset) : act 1 c = c := by
  have h : (fun h => comp h (1 : GroupElement)) = id := by
    funext h; exact comp_one h
  rw [act, h, Finset.image_id]

theorem act_act (g g' : GroupElement) (c : Coset) :
    act g (act g' c) = act (comp g' g) c := by
  rw [act, act, act, Finset.image_image]
  have h : ((fun h => comp h g) ∘ fun h => comp h g') =
      fun h => comp h (comp g' g) := by
    funext h
    exact comp_assoc h g' g
  rw [h]

theorem act_elems (g : GroupElement) (H : GaloisGroup) :
    (H.group.map (fun h => comp h g)).toFinset = act g (elems H) := by
  ext x
  simp [act, elems]

theorem get_cosets_eq (G H : GaloisGroup) :
    get_cosets G H = (elems G).image (fun g => act g (elems H)) := by
  unfold get_cosets
  ext c
  simp only [List.mem_toFinset, List.mem_map, act_elems, Finset.mem_image, elems]

theorem mem_get_cosets {c : Coset} {G H : GaloisGroup} :
    c ∈ get_cosets G H ↔ ∃ g ∈ elems G, act g (elems H) = c := by
  rw [get_cosets_eq]
  simp

theorem act_elems_subset_of_common {H : GaloisGroup} (hH : IsGroup H)
    {g1 g2 x : GroupElement} (h1 : x ∈ act g1 (elems H))
    (h2 : x ∈ act g2 (elems H)) : act g1 (elems H) ⊆ act g2 (elems H) := by
  obtain ⟨a, ha, hax⟩ := mem_act.mp h1
  obtain ⟨b, hb, hbx⟩ := mem_act.mp h2
  have key : comp a g1 = comp b g2 := hax.trans hbx.symm
  intro y hy
  obtain ⟨h, hh, rfl⟩ := mem_act.mp hy
  refine mem_act.mpr ⟨comp (comp h a⁻¹) b, ?_, ?_⟩
  · exact hH.2.1 _ (hH.2.1 _ hh _ (hH.2.2 _ ha)) _ hb
  · calc comp (comp (comp h a⁻¹) b) g2
        = comp (comp h a⁻¹) (comp b g2) := comp_assoc _ _ _
      _ = comp (comp h a⁻¹) (comp a g1) := by rw [key]
      _ = comp h (comp a⁻¹ (comp a g1)) := comp_assoc _ _ _
      _ = comp h (comp (comp a⁻¹ a) g1) := by rw [comp_assoc]
      _ = comp h g1 := by rw [inv_comp, one_comp]

theorem act_elems_eq_of_common {H : GaloisGroup} (hH : IsGroup H)
    {g1 g2 x : GroupElement} (h1 : x ∈ act g1 (elems H))
    (h2 : x ∈ act g2 (elems H)) : act g1 (elems H) = act g2 (elems H) :=
  Finset.Subset.antisymm (act_elems_subset_of_common hH h1 h2)
    (act_elems_subset_of_common hH h2 h1)

theorem get_cosets_disjoint {G H : GaloisGroup} (hH : IsGroup H) :
    ∀ c1 ∈ get_cosets G H, ∀ c2 ∈ get_cosets G H, c1 ≠ c2 → Disjoint c1 c2 := by
  intro c1 hc1 c2 hc2 hne
  by_contra hdisj
  obtain ⟨x, hx1, hx2⟩ := Finset.not_disjoint_iff.mp hdisj
  obtain ⟨g1, _, rfl⟩ := mem_get_cosets.mp hc1
  obtain ⟨g2, _, rfl⟩ := mem_get_cosets.mp hc2
  exact hne (act_elems_eq_of_common hH hx1 hx2)

theorem get_cosets_biUnion {G H : GaloisGroup} (hG : IsGroup G)
    (hH : IsSubgroupOf H G) : (get_cosets G H).biUnion id = elems G := by
  apply Finset.Subset.antisymm
  · intro x hx
    obtain ⟨c, hc, hxc⟩ := Finset.mem_biUnion.mp hx
    obtain ⟨g, hg, rfl⟩ := mem_get_cosets.mp hc
    obtain ⟨h, hh, rfl⟩ := mem_act.mp hxc
    exact hG.2.1 _ (hH.2 hh) _ hg
  · intro g hg
    apply Finset.mem_biUnion.mpr
    refine ⟨act g (elems H), mem_get_cosets.mpr ⟨g, hg, rfl⟩, ?_⟩
    exact mem_act.mpr ⟨1, hH.1.1, one_comp g⟩

theorem get_cosets_card_each (G H : GaloisGroup) :
    ∀ c ∈ get_cosets G H, c.card = (elems H).card := by
  intro c hc
  obtain ⟨g, _, rfl⟩ := mem_get_cosets.mp hc
  exact act_card g (elems H)

theorem get_cosets_count {G H : GaloisGroup} (hG : IsGroup G)
    (hH : IsSubgroupOf H G) :
    (get_cosets G H).card = (elems G).card / (elems H).card := by
  have hdisj := @get_cosets_disjoint G H hH.1
  have hcard : ((get_cosets G H).biUnion id).card =
      ∑ c ∈ get_cosets G H, (id c).card := Finset.card_biUnion hdisj
  rw [get_cosets_biUnion hG hH] at hcard
  have hconst : ∀ c ∈ get_cosets G H, (id c).card = (elems H).card :=
    get_cosets_card_each G H
  rw [Finset.sum_congr rfl hconst, Finset.sum_const, smul_eq_mul] at hcard
  have hpos : 0 < (elems H).card := Finset.card_pos.mpr ⟨1, hH.1.1⟩
  exact (Nat.div_eq_of_eq_mul_left hpos hcard).symm

/-- C1: for every `FiniteGroup G` and true subgroup `H`, `get_cosets G H`
returns pairwise disjoint cosets whose union is the element set of `G`,
each of size `|H|`, and there are `|G| / |H|` of them. -/
theorem get_cosets_is_partition (G H : GaloisGroup) (hG : IsGroup G)
    (hH : IsSubgroupOf H G) :
    (∀ c1 ∈ get_cosets G H, ∀ c2 ∈ get_cosets G H, c1 ≠ c2 → Disjoint c1 c2) ∧
    (get_cosets G H).biUnion id = elems G ∧
    (∀ c ∈ get_cosets G H, c.card = (elems H).card) ∧
    (get_cosets G H).card = (elems G).card / (elems H).card :=
  ⟨get_cosets_disjoint hH.1, get_cosets_biUnion hG hH,
    get_cosets_card_each G H, get_cosets_count hG hH⟩

/-- Witness for C1 at `G = D4`, `H = ⟨τ⟩`. -/
theorem get_cosets_is_partition_witness :
    (IsGroup D4 ∧ IsSubgroupOf Gal_M_L1 D4) ∧
    ((∀ c1 ∈ get_cosets D4 Gal_M_L1, ∀ c2 ∈ get_cosets D4 Gal_M_L1,
        c1 ≠ c2 → Disjoint c1 c2) ∧
      (get_cosets D4 Gal_M_L1).biUnion id = elems D4 ∧
      (∀ c ∈ get_cosets D4 Gal_M_L1, c.card = (elems Gal_M_L1).card) ∧
      (get_cosets D4 Gal_M_L1).card =
        (elems D4).card / (elems Gal_M_L1).card) :=
  ⟨⟨by decide, by decide⟩,
    get_cosets_is_partition D4 Gal_M_L1 (by decide) (by decide)⟩

theorem mem_orbitOf {x c : Coset} {K : GaloisGroup} :
    x ∈ orbitOf K c ↔ ∃ g ∈ elems K, act g c = x := by
  simp [orbitOf]

theorem map_act_toFinset (K : GaloisGroup) (c : Coset) :
    (K.group.map (fun g => act g c)).toFinset = orbitOf K c := by
  ext x
  simp [orbitOf, elems]

theorem get_orbits_eq (cs : Finset Coset) (K : GaloisGroup) :
    get_orbits cs K = cs.image (orbitOf K) := by
  unfold get_orbits
  ext o
  simp only [Finset.mem_image, map_act_toFinset]

theorem mem_get_orbits {o : Finset Coset} {cs : Finset Coset} {K : GaloisGroup} :
    o ∈ get_orbits cs K ↔ ∃ c ∈ cs, orbitOf K c = o := by
  rw [get_orbits_eq]
  simp

theorem self_mem_orbitOf {K : GaloisGroup} (hK1 : (1 : GroupElement) ∈ elems K)
    (c : Coset) : c ∈ orbitOf K c :=
  mem_orbitOf.mpr ⟨1, hK1, act_one c⟩

theorem orbitOf_subset_of_common {K : GaloisGroup} (hK : IsGroup K)
    {c1 c2 x : Coset} (h1 : x ∈ orbitOf K c1) (h2 : x ∈ orbitOf K c2) :
    orbitOf K c1 ⊆ orbitOf K c2 := by
  obtain ⟨g1, hg1, he1⟩ := mem_orbitOf.mp h1
  obtain ⟨g2, hg2, he2⟩ := mem_orbitOf.mp h2
  intro y hy
  obtain ⟨g, hg, rfl⟩ := mem_orbitOf.mp hy
  have hc1 : c1 = act (comp g2 g1⁻¹) c2 := by
    have step : act g1⁻¹ (act g1 c1) = act g1⁻¹ (act g2 c2) := by
      rw [he1, he2]
    rw [act_act, act_act, comp_inv, act_one] at step
    exact step
  refine mem_orbitOf.mpr ⟨comp (comp g2 g1⁻¹) g, ?_, ?_⟩
  · exact hK.2.1 _ (hK.2.1 _ hg2 _ (hK.2.2 _ hg1)) _ hg
  · rw [← act_act, ← hc1]

theorem orbitOf_eq_of_common {K : GaloisGroup} (hK : IsGroup K)
    {c1 c2 x : Coset} (h1 : x ∈ orbitOf K c1) (h2 : x ∈ orbitOf K c2) :
    orbitOf K c1 = orbitOf K c2 :=
  Finset.Subset.antisymm (orbitOf_subset_of_common hK h1 h2)
    (orbitOf_subset_of_common hK h2 h1)

theorem get_orbits_disjoint {cs : Finset Coset} {K : GaloisGroup}
    (hK : IsGroup K) :
    ∀ o1 ∈ get_orbits cs K, ∀ o2 ∈ get_orbits cs K, o1 ≠ o2 → Disjoint o1 o2 := by
  intro o1 ho1 o2 ho2 hne
  by_contra hdisj
  obtain ⟨x, hx1, hx2⟩ := Finset.not_disjoint_iff.mp hdisj
  obtain ⟨c1, _, rfl⟩ := mem_get_orbits.mp ho1
  obtain ⟨c2, _, rfl⟩ := mem_get_orbits.mp ho2
  exact hne (orbitOf_eq_of_common hK hx1 hx2)

theorem get_orbits_biUnion {cs : Finset Coset} {K : GaloisGroup}
    (hK : IsGroup K) (hclosed : ∀ c ∈ cs, ∀ g ∈ elems K, act g c ∈ cs) :
    (get_orbits cs K).biUnion id = cs := by
  apply Finset.Subset.antisymm
  · intro x hx
    obtain ⟨o, ho, hxo⟩ := Finset.mem_biUnion.mp hx
    obtain ⟨c, hc, rfl⟩ := mem_get_orbits.mp ho
    obtain ⟨g, hg, rfl⟩ := mem_orbitOf.mp hxo
    exact hclosed c hc g hg
  · intro c hc
    exact Finset.mem_biUnion.mpr
      ⟨orbitOf K c, mem_get_orbits.mpr ⟨c, hc, rfl⟩, self_mem_orbitOf hK.1 c⟩

theorem orbitOf_card_dvd {K : GaloisGroup} (hK : IsGroup K) (c : Coset) :
    (orbitOf K c).card ∣ (elems K).card := by
  classical
  have hmaps : ∀ g ∈ elems K, act g c ∈ orbitOf K c := fun g hg =>
    Finset.mem_image_of_mem _ hg
  have hfib := Finset.card_eq_sum_card_fiberwise hmaps
  have hfibcard : ∀ x ∈ orbitOf K c,
      ((elems K).filter (fun g => act g c = x)).card =
        ((elems K).filter (fun g => act g c = c)).card := by
    intro x hx
    obtain ⟨g0, hg0, rfl⟩ := mem_orbitOf.mp hx
    have himg : (elems K).filter (fun g => act g c = act g0 c) =
        ((elems K).filter (fun g => act g c = c)).image (fun s => comp s g0) := by
      ext g
      simp only [Finset.mem_filter, Finset.mem_image]
      constructor
      · intro ⟨hgK, hgact⟩
        refine ⟨comp g g0⁻¹, ⟨hK.2.1 _ hgK _ (hK.2.2 _ hg0), ?_⟩, ?_⟩
        · rw [← act_act, hgact, act_act, comp_inv, act_one]
        · rw [comp_assoc, inv_comp, comp_one]
      · rintro ⟨s, ⟨hsK, hsact⟩, rfl⟩
        refine ⟨hK.2.1 _ hsK _ hg0, ?_⟩
        rw [← act_act, hsact]
    rw [himg, Finset.card_image_of_injective _ (comp_right_injective g0)]
  rw [Finset.sum_congr rfl hfibcard, Finset.sum_const, smul_eq_mul] at hfib
  exact Dvd.intro _ hfib.symm

/-- C2: provided `K` is a group and `cosets` is closed under its action,
`get_orbits cosets K` partitions `cosets` and the size of every orbit divides `|K|`. -/
theorem get_orbits_is_partition (cs : Finset Coset) (K : GaloisGroup)
    (hK : IsGroup K) (hclosed : ∀ c ∈ cs, ∀ g ∈ elems K, act g c ∈ cs) :
    (∀ o1 ∈ get_orbits cs K, ∀ o2 ∈ get_orbits cs K, o1 ≠ o2 → Disjoint o1 o2) ∧
    (get_orbits cs K).biUnion id = cs ∧
    (∀ o ∈ get_orbits cs K, o.card ∣ (elems K).card) := by
  refine ⟨get_orbits_disjoint hK, get_orbits_biUnion hK hclosed, ?_⟩
  intro o ho
  obtain ⟨c, _, rfl⟩ := mem_get_orbits.mp ho
  exact orbitOf_card_dvd hK c

/-- Witness for C2: the two-point set `twoPoints` acted on by `⟨σ²⟩`. -/
theorem get_orbits_is_partition_witness :
    (IsGroup Gal_M_L ∧
      (∀ c ∈ twoPoints, ∀ g ∈ elems Gal_M_L, act g c ∈ twoPoints)) ∧
    ((∀ o1 ∈ get_orbits twoPoints Gal_M_L,
        ∀ o2 ∈ get_orbits twoPoints Gal_M_L, o1 ≠ o2 → Disjoint o1 o2) ∧
      (get_orbits twoPoints Gal_M_L).biUnion id = twoPoints ∧
      (∀ o ∈ get_orbits twoPoints Gal_M_L,
        o.card ∣ (elems Gal_M_L).card)) := by
  have h1 : IsGroup Gal_M_L := by decide
  have h2 : ∀ c ∈ twoPoints, ∀ g ∈ elems Gal_M_L, act g c ∈ twoPoints := by
    intro c hc g hg
    fin_cases hc <;> fin_cases hg <;> decide
  exact ⟨⟨h1, h2⟩, get_orbits_is_partition twoPoints Gal_M_L h1 h2⟩

theorem mem_sortBy {α : Type} (r : α → α → Prop) [DecidableRel r] [IsTotal α r]
    [IsTrans α r] [IsAntisymm α r] {s : Finset α} {a : α} :
    a ∈ sortBy r s ↔ a ∈ s := by
  rw [← Multiset.mem_coe, sortBy_coe r s]
  exact Finset.mem_def.symm

theorem length_sortBy {α : Type} (r : α → α → Prop) [DecidableRel r]
    [IsTotal α r] [IsTrans α r] [IsAntisymm α r] (s : Finset α) :
    (sortBy r s).length = s.card := by
  have h := congrArg Multiset.card (sortBy_coe r s)
  simpa using h

theorem sortBy_head_mem {α : Type} (r : α → α → Prop) [DecidableRel r]
    [IsTotal α r] [IsTrans α r] [IsAntisymm α r] {s : Finset α}
    (hs : s.Nonempty) : ∃ x, (sortBy r s).head? = some x ∧ x ∈ s := by
  cases hsort : sortBy r s with
  | nil =>
    exfalso
    have hlen := length_sortBy r s
    rw [hsort] at hlen
    have hpos := Finset.card_pos.mpr hs
    simp at hlen
    omega
  | cons x xs =>
    refine ⟨x, rfl, ?_⟩
    have hx : x ∈ sortBy r s := by
      rw [hsort]
      exact List.mem_cons_self x xs
    exact (mem_sortBy r).mp hx

theorem sortBy_map_sum (r : Finset Coset → Finset Coset → Prop) [DecidableRel r]
    [IsTotal (Finset Coset) r] [IsTrans (Finset Coset) r]
    [IsAntisymm (Finset Coset) r] (s : Finset (Finset Coset))
    (f : Finset Coset → Nat) :
    ((sortBy r s).map f).sum = ∑ x ∈ s, f x := by
  rw [Finset.sum_eq_multiset_sum, ← sortBy_coe r s, Multiset.map_coe,
    Multiset.sum_coe]

theorem inertiaPair_spec {O : Finset Coset} {L : GaloisGroup} (hL : IsGroup L)
    (hO : O.Nonempty) (hclosed : ∀ c ∈ O, ∀ g ∈ elems L, act g c ∈ O)
    (heq : ∀ s1 ∈ get_orbits O L, ∀ s2 ∈ get_orbits O L, s1.card = s2.card) :
    ∃ f e, inertiaPair O L = some (f, e) ∧ 0 < f ∧ 0 < e ∧ f * e = O.card := by
  have hsubne : (get_orbits O L).Nonempty := by
    obtain ⟨c, hc⟩ := hO
    exact ⟨orbitOf L c, mem_get_orbits.mpr ⟨c, hc, rfl⟩⟩
  obtain ⟨ex, hhead, hexmem⟩ := sortBy_head_mem orbitLe hsubne
  refine ⟨(get_orbits O L).card, ex.card, ?_, ?_, ?_, ?_⟩
  · unfold inertiaPair
    simp only [hhead]
  · exact Finset.card_pos.mpr hsubne
  · obtain ⟨c, hc, rfl⟩ := mem_get_orbits.mp hexmem
    exact Finset.card_pos.mpr ⟨c, self_mem_orbitOf hL.1 c⟩
  · have hdisj := @get_orbits_disjoint O L hL
    have hcardsum : ((get_orbits O L).biUnion id).card =
        ∑ s ∈ get_orbits O L, (id s).card := Finset.card_biUnion hdisj
    rw [get_orbits_biUnion hL hclosed] at hcardsum
    have hconst : ∀ s ∈ get_orbits O L, (id s).card = ex.card := fun s hsmem =>
      heq s hsmem ex hexmem
    rw [Finset.sum_congr rfl hconst, Finset.sum_const, smul_eq_mul] at hcardsum
    exact hcardsum.symm

theorem computeInertiaList_spec (L : GaloisGroup) (hL : IsGroup L)
    (lst : List (Finset Coset))
    (hall : ∀ O ∈ lst, O.Nonempty ∧ (∀ c ∈ O, ∀ g ∈ elems L, act g c ∈ O) ∧
      (∀ s1 ∈ get_orbits O L, ∀ s2 ∈ get_orbits O L, s1.card = s2.card)) :
    ∃ l, computeInertiaList lst L = some l ∧ l.length = lst.length ∧
      (∀ p ∈ l, 0 < p.1 ∧ 0 < p.2) ∧
      (l.map (fun p => p.1 * p.2)).sum = (lst.map Finset.card).sum := by
  induction lst with
  | nil => exact ⟨[], rfl, rfl, by simp, by simp⟩
  | cons O rest ih =>
    obtain ⟨hO, hclosed, heq⟩ := hall O (List.mem_cons_self O rest)
    obtain ⟨f, e, hpair, hf, he, hfe⟩ := inertiaPair_spec hL hO hclosed heq
    obtain ⟨l, hcomp, hlen, hpos, hsum⟩ :=
      ih (fun O' hO' => hall O' (List.mem_cons_of_mem O hO'))
    refine ⟨(f, e) :: l, ?_, ?_, ?_, ?_⟩
    · simp only [computeInertiaList, hpair, hcomp]
    · simp [hlen]
    · intro p hp
      rcases List.mem_cons.mp hp with rfl | hp2
      · exact ⟨hf, he⟩
      · exact hpos p hp2
    · simp [hsum, hfe]

/-- C3: given pairwise-disjoint non-empty decomposition orbits, each closed
under the action of the inertia group and with equal-size sub-orbits, the
signature has one pair per orbit, positive entries, and `Σ f·e = N` where
`N` is the total number of cosets decomposed. -/
theorem compute_inertia_signature (d : Finset (Finset Coset)) (L : GaloisGroup)
    (hL : IsGroup L)
    (hdisj : ∀ o1 ∈ d, ∀ o2 ∈ d, o1 ≠ o2 → Disjoint o1 o2)
    (hne : ∀ O ∈ d, O.Nonempty)
    (hclosed : ∀ O ∈ d, ∀ c ∈ O, ∀ g ∈ elems L, act g c ∈ O)
    (heq : ∀ O ∈ d, ∀ s1 ∈ get_orbits O L, ∀ s2 ∈ get_orbits O L,
      s1.card = s2.card) :
    ∃ l, compute_inertia d L = some l ∧ l.length = d.card ∧
      (∀ p ∈ l, 0 < p.1 ∧ 0 < p.2) ∧
      (l.map (fun p => p.1 * p.2)).sum = (d.biUnion id).card := by
  obtain ⟨l, hcomp, hlen, hpos, hsum⟩ := computeInertiaList_spec L hL
    (sortBy orbitLe d) (fun O hO =>
      ⟨hne O ((mem_sortBy orbitLe).mp hO),
        hclosed O ((mem_sortBy orbitLe).mp hO),
        heq O ((mem_sortBy orbitLe).mp hO)⟩)
  refine ⟨l, hcomp, ?_, hpos, ?_⟩
  · rw [hlen, length_sortBy]
  · rw [hsum, sortBy_map_sum]
    have hbi : (d.biUnion id).card = ∑ O ∈ d, (id O).card :=
      Finset.card_biUnion hdisj
    rw [hbi]
    rfl

/-- Witness for C3 at `twoOrbits` with the trivial inertia group. -/
theorem compute_inertia_signature_witness :
    (IsGroup Gal_M_M ∧
      (∀ o1 ∈ twoOrbits, ∀ o2 ∈ twoOrbits, o1 ≠ o2 → Disjoint o1 o2) ∧
      (∀ O ∈ twoOrbits, O.Nonempty) ∧
      (∀ O ∈ twoOrbits, ∀ c ∈ O, ∀ g ∈ elems Gal_M_M, act g c ∈ O) ∧
      (∀ O ∈ twoOrbits, ∀ s1 ∈ get_orbits O Gal_M_M,
        ∀ s2 ∈ get_orbits O Gal_M_M, s1.card = s2.card)) ∧
    (∃ l, compute_inertia twoOrbits Gal_M_M = some l ∧
      l.length = twoOrbits.card ∧ (∀ p ∈ l, 0 < p.1 ∧ 0 < p.2) ∧
      (l.map (fun p => p.1 * p.2)).sum = (twoOrbits.biUnion id).card) := by
  have hL : IsGroup Gal_M_M := by decide
  have hdisj : ∀ o1 ∈ twoOrbits, ∀ o2 ∈ twoOrbits, o1 ≠ o2 → Disjoint o1 o2 := by
    intro o1 h1 o2 h2 hne
    fin_cases h1 <;> fin_cases h2 <;> first | (exact absurd rfl hne) | decide
  have hnon : ∀ O ∈ twoOrbits, O.Nonempty := by
    intro O hO
    fin_cases hO
    · exact ⟨{(1 : GroupElement)}, by decide⟩
    · exact ⟨{comp σ σ}, by decide⟩
  have hclosed : ∀ O ∈ twoOrbits, ∀ c ∈ O, ∀ g ∈ elems Gal_M_M,
      act g c ∈ O := by
    intro O hO c hc g hg
    fin_cases hO <;> fin_cases hc <;> fin_cases hg <;> decide
  have heq : ∀ O ∈ twoOrbits, ∀ s1 ∈ get_orbits O Gal_M_M,
      ∀ s2 ∈ get_orbits O Gal_M_M, s1.card = s2.card := by
    intro O hO
    fin_cases hO <;>
      (intro s1 hs1 s2 hs2; fin_cases hs1; fin_cases hs2; decide)
  exact ⟨⟨hL, hdisj, hnon, hclosed, heq⟩,
    compute_inertia_signature twoOrbits Gal_M_M hL hdisj hnon hclosed heq⟩

/-- C4: the full pipeline on `D4` with `H₁ = ⟨τ⟩`, `K = ⟨σ⟩`, `L = ⟨σ²⟩`
produces exactly `"(2^2)"`. -/
theorem pipeline_L1_signature :
    (compute_inertia (get_orbits (get_cosets D4 Gal_M_L1) Gal_M_K) Gal_M_L).map
      (fun l => (write_inertia l).2) = some ("(2^2)") := by
  decide

/-- C6: the full pipeline on `D4` with the intermediate-field subgroup equal
to `L = ⟨σ²⟩` itself, same `K = ⟨σ⟩`, produces exactly `"(2 2)"`. -/
theorem pipeline_L_signature :
    (compute_inertia (get_orbits (get_cosets D4 Gal_M_L) Gal_M_K) Gal_M_L).map
      (fun l => (write_inertia l).2) = some ("(2 2)") := by
  decide

/-- C5: `write_inertia` returns the parenthesised, space-joined rendering of
a permutation of its input sorted by ascending `f`, ties by descending `e`,
and in particular maps `[(2,1),(2,3),(1,2),(1,1)]` to `"(1^2 1 2^3 2)"`. -/
theorem write_inertia_format :
    (∀ l : List (Nat × Nat), (∀ p ∈ l, 0 < p.1 ∧ 0 < p.2) →
      ∃ s : List (Nat × Nat), s.Perm l ∧ s.Sorted inertiaOrder ∧
        (write_inertia l).2 =
          "(" ++ String.intercalate (" ") (s.map renderPair) ++ ")") ∧
    (write_inertia [(2, 1), (2, 3), (1, 2), (1, 1)]).2 = "(1^2 1 2^3 2)" := by
  constructor
  · intro l _
    exact ⟨List.insertionSort inertiaOrder l, List.perm_insertionSort _ l,
      List.sorted_insertionSort _ l, rfl⟩
  · decide

/-- Witness for C5 at the literal example list of the spec. -/
theorem write_inertia_format_witness :
    (∀ p ∈ ([(2, 1), (2, 3), (1, 2), (1, 1)] : List (Nat × Nat)),
      0 < p.1 ∧ 0 < p.2) ∧
    (∃ s : List (Nat × Nat), s.Perm [(2, 1), (2, 3), (1, 2), (1, 1)] ∧
      s.Sorted inertiaOrder ∧
      (write_inertia [(2, 1), (2, 3), (1, 2), (1, 1)]).2 =
        "(" ++ String.intercalate (" ") (s.map renderPair) ++ ")") :=
  ⟨by decide,
    write_inertia_format.1 [(2, 1), (2, 3), (1, 2), (1, 1)] (by decide)⟩

/-- C9: the argument list after `write_inertia` is the in-place-sorted
permutation of the original (same multiset, ascending `f`, ties by
descending `e`), and on `[(2,1),(1,1)]` it really is reordered. -/
theorem write_inertia_mutates :
    (∀ l : List (Nat × Nat), ((write_inertia l).1).Perm l ∧
      ((write_inertia l).1).Sorted inertiaOrder) ∧
    (write_inertia [(2, 1), (1, 1)]).1 = [(1, 1), (2, 1)] ∧
    ([(1, 1), (2, 1)] : List (Nat × Nat)) ≠ [(2, 1), (1, 1)] :=
  ⟨fun l => ⟨List.perm_insertionSort _ l, List.sorted_insertionSort _ l⟩,
    by decide, by decide⟩

/-- C7: the display label influences no core computation: two `GaloisGroup`s
with the same element tuple are interchangeable in every argument position
of `get_cosets`, `get_orbits` and `compute_inertia`. -/
theorem label_independence :
    ∀ A B : GaloisGroup, A.group = B.group →
      (∀ X : GaloisGroup, get_cosets A X = get_cosets B X ∧
        get_cosets X A = get_cosets X B) ∧
      (∀ cs : Finset Coset, get_orbits cs A = get_orbits cs B) ∧
      (∀ d : Finset (Finset Coset), compute_inertia d A = compute_inertia d B) := by
  intro A B h
  obtain ⟨ga, na⟩ := A
  obtain ⟨gb, nb⟩ := B
  have h2 : ga = gb := h
  subst h2
  have hpair : ∀ O : Finset Coset,
      inertiaPair O (GaloisGroup.mk ga na) =
        inertiaPair O (GaloisGroup.mk ga nb) := fun O => rfl
  have hlist : ∀ lst : List (Finset Coset),
      computeInertiaList lst (GaloisGroup.mk ga na) =
        computeInertiaList lst (GaloisGroup.mk ga nb) := by
    intro lst
    induction lst with
    | nil => rfl
    | cons O rest ih => simp only [computeInertiaList, hpair, ih]
  exact ⟨fun X => ⟨rfl, rfl⟩, fun cs => rfl, fun d => hlist _⟩

/-- Witness for C7: `⟨σ⟩` against a relabelled copy of it. -/
theorem label_independence_witness :
    Gal_M_K.group = relabelledK.group ∧
    ((∀ X : GaloisGroup,
        get_cosets Gal_M_K X =
          get_cosets relabelledK X ∧
        get_cosets X Gal_M_K =
          get_cosets X relabelledK) ∧
      (∀ cs : Finset Coset,
        get_orbits cs Gal_M_K =
          get_orbits cs relabelledK) ∧
      (∀ d : Finset (Finset Coset),
        compute_inertia d Gal_M_K =
          compute_inertia d relabelledK)) :=
  ⟨rfl, label_independence Gal_M_K relabelledK rfl⟩

theorem get_orbits_nonempty {O : Finset Coset} (L : GaloisGroup)
    (hO : O.Nonempty) : (get_orbits O L).Nonempty := by
  rw [get_orbits_eq]
  exact hO.image _

theorem inertiaPair_isSome {O : Finset Coset} (L : GaloisGroup)
    (hO : O.Nonempty) : ∃ p, inertiaPair O L = some p := by
  obtain ⟨ex, hhead, _⟩ := sortBy_head_mem orbitLe (get_orbits_nonempty L hO)
  refine ⟨((get_orbits O L).card, ex.card), ?_⟩
  unfold inertiaPair
  simp only [hhead]

theorem inertiaPair_empty (L : GaloisGroup) : inertiaPair ∅ L = none := rfl

theorem computeInertiaList_isSome (L : GaloisGroup) :
    ∀ lst : List (Finset Coset), (∀ O ∈ lst, O.Nonempty) →
      ∃ l, computeInertiaList lst L = some l := by
  intro lst hall
  induction lst with
  | nil => exact ⟨[], rfl⟩
  | cons O rest ih =>
    obtain ⟨p, hp⟩ := inertiaPair_isSome L (hall O (List.mem_cons_self O rest))
    obtain ⟨l, hl⟩ := ih (fun O' hO' => hall O' (List.mem_cons_of_mem O hO'))
    exact ⟨p :: l, by simp only [computeInertiaList, hp, hl]⟩

theorem computeInertiaList_none_of_empty (L : GaloisGroup) :
    ∀ lst : List (Finset Coset), (∅ : Finset Coset) ∈ lst →
      computeInertiaList lst L = none := by
  intro lst hmem
  induction lst with
  | nil => cases hmem
  | cons O rest ih =>
    rcases List.mem_cons.mp hmem with heq | hmem2
    · rw [← heq] at *
      simp only [computeInertiaList, inertiaPair_empty]
    · rw [computeInertiaList, ih hmem2]
      cases inertiaPair O L <;> rfl

/-- C8: `compute_inertia` succeeds exactly when no supplied orbit is empty:
`get_orbits` of a non-empty set is non-empty so the example extraction
succeeds, while an empty orbit makes the extraction fail (`none` models the
`StopIteration` raise). -/
theorem compute_inertia_totality :
    (∀ (O : Finset Coset) (L : GaloisGroup), O.Nonempty →
      (get_orbits O L).Nonempty) ∧
    (∀ (d : Finset (Finset Coset)) (L : GaloisGroup),
      (∀ O ∈ d, O.Nonempty) → ∃ l, compute_inertia d L = some l) ∧
    (∀ (d : Finset (Finset Coset)) (L : GaloisGroup),
      (∅ : Finset Coset) ∈ d → compute_inertia d L = none) := by
  refine ⟨fun O L hO => get_orbits_nonempty L hO, ?_, ?_⟩
  · intro d L hall
    exact computeInertiaList_isSome L (sortBy orbitLe d)
      (fun O hO => hall O ((mem_sortBy orbitLe).mp hO))
  · intro d L hmem
    exact computeInertiaList_none_of_empty L (sortBy orbitLe d)
      ((mem_sortBy orbitLe).mpr hmem)

/-- Witness for C8: success on `twoOrbits`, failure on `{∅}`. -/
theorem compute_inertia_totality_witness :
    (({{(1 : GroupElement)}} : Finset Coset).Nonempty ∧
      (get_orbits {{(1 : GroupElement)}} Gal_M_M).Nonempty) ∧
    ((∀ O ∈ twoOrbits, O.Nonempty) ∧
      ∃ l, compute_inertia twoOrbits Gal_M_M = some l) ∧
    ((∅ : Finset Coset) ∈ ({∅} : Finset (Finset Coset)) ∧
      compute_inertia {∅} Gal_M_M = none) := by
  have h1 : ({{(1 : GroupElement)}} : Finset Coset).Nonempty :=
    ⟨{(1 : GroupElement)}, by decide⟩
  have h2 : ∀ O ∈ twoOrbits, O.Nonempty := by
    intro O hO
    fin_cases hO
    · exact ⟨{(1 : GroupElement)}, by decide⟩
    · exact ⟨{comp σ σ}, by decide⟩
  have h3 : (∅ : Finset Coset) ∈ ({∅} : Finset (Finset Coset)) := by decide
  exact ⟨⟨h1, compute_inertia_totality.1 _ Gal_M_M h1⟩,
    ⟨h2, compute_inertia_totality.2.1 twoOrbits Gal_M_M h2⟩,
    ⟨h3, compute_inertia_totality.2.2 {∅} Gal_M_M h3⟩⟩

/-- C10: `GaloisGroup` equality is componentwise on the `(group,
latex_name)` pair: same tuple with different labels is unequal, the same
elements in a different tuple order is unequal. -/
theorem galoisGroup_eq_iff :
    (∀ a b : GaloisGroup,
      a = b ↔ a.group = b.group ∧ a.latex_name = b.latex_name) ∧
    GaloisGroup.mk [σ] ("A") ≠ GaloisGroup.mk [σ] ("B") ∧
    GaloisGroup.mk [ι, σ] ("A") ≠ GaloisGroup.mk [σ, ι] ("A") ∧
    GaloisGroup.mk [σ] ("A") = GaloisGroup.mk [σ] ("A") := by
  refine ⟨?_, by decide, by decide, rfl⟩
  intro a b
  cases a
  cases b
  simp [GaloisGroup.mk.injEq]
